/-
Verification of the resume-bot text pipeline (`bot.py`): the text
normalizer `normalize_text`, the PDF extraction strategy selection in
`extract_text_from_pdf`, the file-extension dispatch of
`handle_resume_file`, and the chunking loop that splits normalized text
into outbound messages.

Strings are modelled as `List Char` (Python strings are sequences of
code points, as are Lean `String.toList` values).  Python's regular
expressions from `normalize_text` are modelled by recursive scanners
whose step-by-step behaviour matches leftmost, non-overlapping
substitution of the corresponding pattern.
-/
import Mathlib

/-- U+00AD, removed by `text.replace("­", "")`. -/
def softHyphen : Char := Char.ofNat 0x00AD

/-- U+200B, removed by `text.replace("​", "")`. -/
def zeroWidthSpace : Char := Char.ofNat 0x200B

/-- U+00A0, mapped to a plain space by `text.replace("\xa0", " ")`. -/
def noBreakSpace : Char := Char.ofNat 0x00A0

/-- The set of characters stripped by Python's `str.strip()` /
`str.lstrip()` / `str.rstrip()` with no argument (the characters for
which CPython's `Py_UNICODE_ISSPACE` holds). -/
def isPySpace (c : Char) : Bool :=
  decide (c.toNat = 0x20) ||
  (decide (0x09 ≤ c.toNat) && decide (c.toNat ≤ 0x0d)) ||
  (decide (0x1c ≤ c.toNat) && decide (c.toNat ≤ 0x1f)) ||
  decide (c.toNat = 0x85) || decide (c.toNat = 0xa0) ||
  decide (c.toNat = 0x1680) ||
  (decide (0x2000 ≤ c.toNat) && decide (c.toNat ≤ 0x200a)) ||
  decide (c.toNat = 0x2028) || decide (c.toNat = 0x2029) ||
  decide (c.toNat = 0x202f) || decide (c.toNat = 0x205f) ||
  decide (c.toNat = 0x3000)

/-- `bot.py` line 41: the three `str.replace` calls — drop soft hyphens
and zero-width spaces, turn no-break spaces into plain spaces. -/
def replaceSpecials (l : List Char) : List Char :=
  (l.filter (fun c => !(c == softHyphen || c == zeroWidthSpace))).map
    (fun c => if c = noBreakSpace then ' ' else c)

/-- `bot.py` line 42: `re.sub(r"\r\n?", "\n", ...)`.  A leftmost scan:
a `"\r\n"` pair becomes `"\n"`, a lone `'\r'` becomes `'\n'`. -/
def collapseCR : List Char → List Char
  | [] => []
  | [c] => [if c = '\r' then '\n' else c]
  | a :: b :: rest =>
      if a = '\r' then
        if b = '\n' then '\n' :: collapseCR rest
        else '\n' :: collapseCR (b :: rest)
      else a :: collapseCR (b :: rest)

/-- A character matched by the regex class `[\t ]`. -/
def isHS (c : Char) : Bool := c == '\t' || c == ' '

/-- How a single `[\t ]` character is rewritten by
`re.sub(r"[\t ]+", " ", ...)`. -/
def hs2sp (c : Char) : Char := if isHS c then ' ' else c

/-- `bot.py` line 43: `re.sub(r"[\t ]+", " ", ...)`.  A maximal run of
tabs/spaces is replaced by a single space: while two `[\t ]` characters
are adjacent the first is dropped; the surviving one is rewritten by
`hs2sp`. -/
def collapseHS : List Char → List Char
  | [] => []
  | [c] => [hs2sp c]
  | a :: b :: rest =>
      if isHS a && isHS b then collapseHS (b :: rest)
      else hs2sp a :: collapseHS (b :: rest)

/-- `bot.py` line 44: `re.sub(r"\n +", "\n", ...)`, as a scanner whose
flag records whether the previously emitted character was `'\n'` (or we
are inside the run of spaces that followed it); such spaces are
dropped. -/
def dropSpaceAfterNL : Bool → List Char → List Char
  | _, [] => []
  | afterNL, c :: rest =>
      if afterNL && c == ' ' then dropSpaceAfterNL true rest
      else c :: dropSpaceAfterNL (c == '\n') rest

/-- `bot.py` line 45: `re.sub(r"\n{3,}", "\n\n", ...)`.  Of any run of
three or more `'\n'`, only the last two survive: while three `'\n'` are
adjacent, drop the first. -/
def collapseNL : List Char → List Char
  | [] => []
  | [a] => [a]
  | [a, b] => [a, b]
  | a :: b :: c :: rest =>
      if a = '\n' && b = '\n' && c = '\n' then collapseNL (b :: c :: rest)
      else a :: collapseNL (b :: c :: rest)

/-- Python `str.lstrip()`. -/
def pyLstrip (l : List Char) : List Char := l.dropWhile isPySpace

/-- Python `str.rstrip()`. -/
def pyRstrip (l : List Char) : List Char := (l.reverse.dropWhile isPySpace).reverse

/-- Python `str.strip()`. -/
def pyStrip (l : List Char) : List Char := pyLstrip (pyRstrip l)

/-- `bot.py` lines 37–46, `normalize_text`: the empty-input guard, the
three `replace` calls, the four `re.sub` passes, and the final
`strip()`. -/
def normalize_text (l : List Char) : List Char :=
  if l = [] then []
  else pyStrip (collapseNL (dropSpaceAfterNL false (collapseHS (collapseCR (replaceSpecials l)))))

/-! ## PDF extraction (`extract_text_from_pdf`, lines 49-58)

The two third-party extraction strategies are opaque I/O; the function
is modelled on their results: `primary` is what
`pdfminer_extract_text` returned for the buffer, and `pages` the list
of per-page `page.extract_text()` results of `PdfReader` (`none` when
a page yields no text, matching the `or ""` in the comprehension). -/

/-- `bot.py` lines 49-58: return the normalized primary text when it is
non-empty (`if text:`), otherwise normalize the page texts joined with
`"\n".join(pages)`. -/
def extract_text_from_pdf (primary : List Char) (pages : List (Option (List Char))) :
    List Char :=
  if primary ≠ [] then normalize_text primary
  else normalize_text (List.intercalate ['\n'] (pages.map (fun p => p.getD [])))

/-! ## The chunking loop (`handle_resume_file`, lines 125-149) -/

/-- Python `remaining.rfind(c, 0, stop)` restricted to a single-character
needle, as the index of the last occurrence (`none` for `-1`): the last
index of `c` in `l`. -/
def lastIdxOf (c : Char) : List Char → Option Nat
  | [] => none
  | a :: rest =>
      match lastIdxOf c rest with
      | some i => some (i + 1)
      | none => if a = c then some 0 else none

/-- `bot.py` lines 135-139: `split_at`, computed for `remaining` longer
than the payload budget: `remaining.rfind("\n", 0, 3500)`, falling back
to `remaining.rfind(" ", 0, 3500)`, falling back to `3500`. -/
def splitIndex (r : List Char) : Nat :=
  match lastIdxOf '\n' (r.take 3500) with
  | some i => i
  | none =>
      match lastIdxOf ' ' (r.take 3500) with
      | some i => i
      | none => 3500

/-- `bot.py` line 143: the next value of `remaining`,
`remaining[split_at:].lstrip()`. -/
def nextRemaining (r : List Char) : List Char := pyLstrip (r.drop (splitIndex r))

/-- `bot.py` line 141: the chunk carved off the front,
`remaining[:split_at].rstrip()`. -/
def frontChunk (r : List Char) : List Char := pyRstrip (r.take (splitIndex r))

/-- The `while remaining:` loop of `bot.py` lines 130-143, with an
explicit fuel that bounds the number of iterations (every iteration
strictly shortens `remaining`, so `r.length` iterations suffice; the
equation `chunkLoop_eq` below recovers the unfettered loop). -/
def chunkLoopF : Nat → List Char → List (List Char)
  | 0, _ => []
  | fuel + 1, r =>
      if r = [] then []
      else if r.length ≤ 3500 then [r]
      else frontChunk r :: chunkLoopF fuel (nextRemaining r)

/-- The chunk list produced by the `while remaining:` loop for a given
starting text. -/
def chunkLoop (r : List Char) : List (List Char) := chunkLoopF r.length r

/-- Like `chunkLoop`, but each chunk is paired with the whitespace the
loop consumed right after it: the trailing whitespace `rstrip` removed
from `remaining[:split_at]` followed by the leading whitespace `lstrip`
removed from `remaining[split_at:]`.  The final chunk consumes
nothing. -/
def chunkPiecesF : Nat → List Char → List (List Char × List Char)
  | 0, _ => []
  | fuel + 1, r =>
      if r = [] then []
      else if r.length ≤ 3500 then [(r, [])]
      else
        (frontChunk r,
          ((r.take (splitIndex r)).reverse.takeWhile isPySpace).reverse ++
            (r.drop (splitIndex r)).takeWhile isPySpace)
          :: chunkPiecesF fuel (nextRemaining r)

/-- `chunkPiecesF` with enough fuel. -/
def chunkPieces (r : List Char) : List (List Char × List Char) := chunkPiecesF r.length r

/-! ## Message formatting (`handle_resume_file`, lines 145-149) -/

/-- Decimal digits of a natural number, mirroring Python `str(index)`. -/
def natDecimalDigits (n : Nat) : List Char :=
  if n = 0 then ['0'] else ((Nat.digits 10 n).map Nat.digitChar).reverse

/-- `bot.py` line 146: `header = f"{date_label} • Страница {index}\n\n"`. -/
def headerChars (dateLabel : List Char) (index : Nat) : List Char :=
  dateLabel ++ " • Страница ".toList ++ natDecimalDigits index ++ ['\n', '\n']

/-- Python `l[:n]` where `n` may be negative: a negative bound counts
from the end of the list (clamped at zero). -/
def pySliceTo (l : List Char) (n : Int) : List Char :=
  if 0 ≤ n then l.take n.toNat else l.take (l.length - (-n).toNat)

/-- `bot.py` lines 146-149: one outbound message — header plus the body
`chunk[:4096 - len(header)]`. -/
def buildMessage (dateLabel : List Char) (index : Nat) (chunk : List Char) : List Char :=
  headerChars dateLabel index ++
    pySliceTo chunk (4096 - ((headerChars dateLabel index).length : Int))

/-- `bot.py` lines 145-149: the outbound messages, one per chunk, with
one-based page indices (`enumerate(chunks, start=1)`). -/
def buildMessages (dateLabel : List Char) (text : List Char) : List (List Char) :=
  (chunkLoop text).enum.map (fun p => buildMessage dateLabel (p.1 + 1) p.2)

/-! ## The upload handler (`handle_resume_file`, lines 92-149)

The handler's interactions are modelled as an ordered trace of events.
The Telegram transport (`bot.get_file` / `bot.download`) is opaque
I/O; the outcome of the extraction attempt (lines 109-113) enters as an
`Except` parameter: `.error` when `extract_text_from_pdf` /
`extract_text_from_docx` raised, `.ok text` when it returned `text`. -/

/-- An uploaded Telegram document as far as the handler inspects it. -/
structure TgDocument where
  fileName : Option (List Char)
deriving DecidableEq

/-- `bot.py` lines 68-73, `get_file_extension`: `None` for a missing or
empty filename or one without a dot, else the lowercased part after the
last dot (`rsplit(".", 1)[1].lower()`; `str.lower` is modelled by
ASCII `Char.toLower`, which agrees with it on all filenames considered
here). -/
def get_file_extension (d : TgDocument) : Option (List Char) :=
  match d.fileName with
  | none => none
  | some name =>
      if name = [] then none
      else if '.' ∉ name then none
      else some (((name.reverse.takeWhile (fun c => c ≠ '.')).reverse).map Char.toLower)

/-- One observable step of `handle_resume_file`, in program order. -/
inductive BotEvent where
  /-- line 96: reply that a document is required. -/
  | replyNotDocument
  /-- line 101: reply that only PDF and DOCX are supported. -/
  | replyUnsupported
  /-- lines 110-113: the extraction attempt starts. -/
  | extractAttempt
  /-- line 116: generic failure reply, sent inside the `except` block. -/
  | replyFail
  /-- line 122: reply that the file has no readable text. -/
  | replyEmpty
  /-- line 119: `state.clear()` in the `finally` block. -/
  | clearState
  /-- line 149: one formatted chunk message. -/
  | sendMessage (msg : List Char)
deriving DecidableEq

/-- `bot.py` lines 92-149, `handle_resume_file`, as the trace of its
observable events.  Python's `try`/`except`/`finally` order is kept: on
an extraction error the `except` body (the failure reply) runs first
and the `finally` (`state.clear()`) runs as the `return` leaves the
`try` statement; on success the `finally` runs before the code that
follows the `try` statement. -/
def handle_resume_file (doc : Option TgDocument) (outcome : Except Unit (List Char))
    (dateLabel : List Char) : List BotEvent :=
  match doc with
  | none => [.replyNotDocument]
  | some d =>
      if get_file_extension d = some "pdf".toList ∨
          get_file_extension d = some "docx".toList then
        .extractAttempt ::
          match outcome with
          | .error _ => [.replyFail, .clearState]
          | .ok text =>
              .clearState ::
                if text = [] then [.replyEmpty]
                else (buildMessages dateLabel text).map .sendMessage
      else [.replyUnsupported]

/-- An event that reports the extraction outcome to the user (success
chunks, the empty-text reply, or the failure reply). -/
def isOutcomeReply : BotEvent → Bool
  | .replyFail => true
  | .replyEmpty => true
  | .sendMessage _ => true
  | _ => false

/-- Whether, scanning the trace left to right, no outcome reply occurs
before a `clearState`. -/
def clearedBeforeRepliesAux (cleared : Bool) : List BotEvent → Bool
  | [] => true
  | e :: rest =>
      if e = .clearState then clearedBeforeRepliesAux true rest
      else if isOutcomeReply e && !cleared then false
      else clearedBeforeRepliesAux cleared rest

/-- The trace clears the conversation state before any reply about the
extraction outcome. -/
def clearedBeforeReplies (events : List BotEvent) : Bool :=
  clearedBeforeRepliesAux false events

/-! ## Substring-pattern predicates used for the normalizer proofs -/

/-- `l` contains the two-character pattern `x y` at consecutive
positions. -/
def hasPair (x y : Char) (l : List Char) : Prop :=
  ∃ u v, l = u ++ x :: y :: v

/-- `l` contains the three-character pattern `x y z` at consecutive
positions. -/
def hasTriple (x y z : Char) (l : List Char) : Prop :=
  ∃ u v, l = u ++ x :: y :: z :: v

/-! ## Basic facts about the Python string helpers -/

theorem pyLstrip_length_le (l : List Char) : (pyLstrip l).length ≤ l.length :=
  (List.dropWhile_sublist isPySpace).length_le

theorem pyRstrip_length_le (l : List Char) : (pyRstrip l).length ≤ l.length := by
  have := (List.dropWhile_sublist (l := l.reverse) isPySpace).length_le
  simpa [pyRstrip] using this

/-- `rstrip` splits its input into the result and the removed trailing
whitespace. -/
theorem pyRstrip_append (l : List Char) :
    pyRstrip l ++ (l.reverse.takeWhile isPySpace).reverse = l := by
  rw [pyRstrip, ← List.reverse_append, List.takeWhile_append_dropWhile, List.reverse_reverse]

/-- `lstrip` splits its input into the removed leading whitespace and
the result. -/
theorem pyLstrip_append (l : List Char) :
    l.takeWhile isPySpace ++ pyLstrip l = l :=
  List.takeWhile_append_dropWhile ..

theorem head_dropWhile_not {p : Char → Bool} :
    ∀ {l : List Char} {c : Char}, (l.dropWhile p).head? = some c → p c = false := by
  intro l
  induction l with
  | nil => intro c h; simp [List.dropWhile] at h
  | cons a t ih =>
      intro c h
      rw [List.dropWhile_cons] at h
      by_cases hp : p a
      · rw [if_pos hp] at h
        exact ih h
      · rw [if_neg hp] at h
        simp only [List.head?_cons, Option.some.injEq] at h
        subst h
        simpa using hp

theorem mem_pyStrip {l : List Char} {c : Char} (h : c ∈ pyStrip l) : c ∈ l := by
  have h1 : c ∈ pyRstrip l := (List.dropWhile_sublist _).mem h
  have h2 : c ∈ l.reverse :=
    (List.dropWhile_sublist (l := l.reverse) isPySpace).mem (by simpa [pyRstrip] using h1)
  simpa using h2

theorem pyStrip_head_not_space {l : List Char} {c : Char}
    (h : (pyStrip l).head? = some c) : isPySpace c = false :=
  head_dropWhile_not h

theorem pyStrip_getLast_not_space {l : List Char} {c : Char}
    (h : (pyStrip l).getLast? = some c) : isPySpace c = false := by
  have hne : pyStrip l ≠ [] := by
    intro he; rw [he] at h; simp at h
  have hsp : List.takeWhile isPySpace (pyRstrip l) ++ pyStrip l = pyRstrip l :=
    pyLstrip_append (pyRstrip l)
  have hlast : (pyRstrip l).getLast? = some c := by
    rw [← hsp, List.getLast?_append_of_ne_nil _ hne]
    exact h
  have hrev : (l.reverse.dropWhile isPySpace).head? = some c := by
    rw [pyRstrip] at hlast
    simpa using hlast
  exact head_dropWhile_not hrev

theorem pyStrip_sandwich (l : List Char) :
    ∃ u v, l = u ++ pyStrip l ++ v := by
  refine ⟨(pyRstrip l).takeWhile isPySpace, (l.reverse.takeWhile isPySpace).reverse, ?_⟩
  have h1 : List.takeWhile isPySpace (pyRstrip l) ++ pyStrip l = pyRstrip l :=
    pyLstrip_append (pyRstrip l)
  rw [h1, pyRstrip_append]

/-! ## `lastIdxOf` is a correct `rfind` -/

theorem lastIdxOf_lt_length {c : Char} :
    ∀ {l : List Char} {i : Nat}, lastIdxOf c l = some i → i < l.length := by
  intro l
  induction l with
  | nil => intro i h; simp [lastIdxOf] at h
  | cons a t ih =>
      intro i h
      rw [lastIdxOf] at h
      cases ht : lastIdxOf c t with
      | some j =>
          rw [ht] at h
          cases h
          simpa using Nat.succ_lt_succ (ih ht)
      | none =>
          rw [ht] at h
          by_cases hac : a = c
          · rw [if_pos hac] at h
            cases h
            simp
          · rw [if_neg hac] at h
            cases h

theorem lastIdxOf_getElem {c : Char} :
    ∀ {l : List Char} {i : Nat}, lastIdxOf c l = some i → l[i]? = some c := by
  intro l
  induction l with
  | nil => intro i h; simp [lastIdxOf] at h
  | cons a t ih =>
      intro i h
      rw [lastIdxOf] at h
      cases ht : lastIdxOf c t with
      | some j =>
          rw [ht] at h
          cases h
          simpa using ih ht
      | none =>
          rw [ht] at h
          by_cases hac : a = c
          · rw [if_pos hac] at h
            cases h
            simp [hac]
          · rw [if_neg hac] at h
            cases h

theorem lastIdxOf_none {c : Char} :
    ∀ {l : List Char}, lastIdxOf c l = none ↔ c ∉ l := by
  intro l
  induction l with
  | nil => simp [lastIdxOf]
  | cons a t ih =>
      rw [lastIdxOf]
      cases ht : lastIdxOf c t with
      | some j =>
          constructor
          · intro h; simp at h
          · intro h
            exact absurd
              (List.mem_cons_of_mem a (List.getElem?_mem (lastIdxOf_getElem ht))) h
      | none =>
          have hnt : c ∉ t := ih.mp ht
          by_cases hac : a = c
          · rw [if_pos hac]
            constructor
            · intro h; cases h
            · intro h; exact absurd (List.mem_cons.mpr (Or.inl hac.symm)) h
          · rw [if_neg hac]
            constructor
            · intro _ hmem
              rcases List.mem_cons.mp hmem with h | h
              · exact hac h.symm
              · exact hnt h
            · intro _; rfl

theorem lastIdxOf_maximal {c : Char} :
    ∀ {l : List Char} {i : Nat}, lastIdxOf c l = some i →
      ∀ j, i < j → l[j]? ≠ some c := by
  intro l
  induction l with
  | nil => intro i h; simp [lastIdxOf] at h
  | cons a t ih =>
      intro i h j hij
      rw [lastIdxOf] at h
      cases ht : lastIdxOf c t with
      | some k =>
          rw [ht] at h
          cases h
          cases j with
          | zero => omega
          | succ j' =>
              intro hc
              have : t[j']? = some c := by simpa using hc
              exact ih ht j' (by omega) this
      | none =>
          rw [ht] at h
          by_cases hac : a = c
          · rw [if_pos hac] at h
            cases h
            cases j with
            | zero => omega
            | succ j' =>
                intro hc
                have hmem : c ∈ t := List.getElem?_mem (by simpa using hc)
                exact (lastIdxOf_none.mp ht) hmem
          · rw [if_neg hac] at h
            cases h

/-! ## Facts about the split position and the loop -/

theorem splitIndex_le (r : List Char) : splitIndex r ≤ 3500 := by
  rw [splitIndex]
  have hlen : (r.take 3500).length ≤ 3500 := by
    simp [List.length_take]
  split
  · next i h1 =>
      have := lastIdxOf_lt_length h1
      omega
  · split
    · next i h2 =>
        have := lastIdxOf_lt_length h2
        omega
    · exact Nat.le_refl _

/-- When the split position is `0`, the first character of `remaining`
is the found `'\n'` or `' '`: in particular it is whitespace. -/
theorem splitIndex_zero_head {r : List Char} (hlen : 3500 < r.length)
    (h : splitIndex r = 0) : ∃ c, r.head? = some c ∧ isPySpace c = true := by
  rw [splitIndex] at h
  have hget : ∀ c : Char, (r.take 3500)[0]? = some c → r.head? = some c := by
    intro c hc
    have : r[0]? = some c := by
      rw [← List.getElem?_take_of_lt (l := r) (n := 3500) (m := 0) (by omega)]
      exact hc
    cases r with
    | nil => simp at this
    | cons a t => simpa using this
  split at h
  · next i h1 =>
      subst h
      exact ⟨'\n', hget _ (lastIdxOf_getElem h1), by decide⟩
  · split at h
    · next i h2 =>
        subst h
        exact ⟨' ', hget _ (lastIdxOf_getElem h2), by decide⟩
    · omega

/-- Claim C10's core: one loop iteration on text longer than the budget
strictly shortens `remaining`. -/
theorem nextRemaining_length_lt {r : List Char} (hlen : 3500 < r.length) :
    (nextRemaining r).length < r.length := by
  rw [nextRemaining]
  by_cases h0 : splitIndex r = 0
  · obtain ⟨c, hc, hsp⟩ := splitIndex_zero_head hlen h0
    cases r with
    | nil => simp at hlen
    | cons a t =>
        simp only [List.head?_cons, Option.some.injEq] at hc
        subst hc
        rw [h0, List.drop_zero, pyLstrip, List.dropWhile_cons, if_pos hsp]
        have := (List.dropWhile_sublist (l := t) isPySpace).length_le
        simp only [List.length_cons]
        omega
  · have hdrop : (r.drop (splitIndex r)).length < r.length := by
      rw [List.length_drop]
      omega
    exact Nat.lt_of_le_of_lt (pyLstrip_length_le _) hdrop

theorem chunkLoopF_nil (fuel : Nat) : chunkLoopF fuel [] = [] := by
  cases fuel <;> simp [chunkLoopF]

/-- The fuel does not matter as long as it covers the length of the
text, so `chunkLoop` computes the limit of the `while` loop. -/
theorem chunkLoopF_fuel_eq :
    ∀ f1 f2 (r : List Char), r.length ≤ f1 → r.length ≤ f2 →
      chunkLoopF f1 r = chunkLoopF f2 r := by
  intro f1
  induction f1 with
  | zero =>
      intro f2 r h1 _
      have : r = [] := List.length_eq_zero.mp (Nat.le_zero.mp h1)
      subst this
      rw [chunkLoopF_nil, chunkLoopF_nil]
  | succ f1 ih =>
      intro f2 r h1 h2
      cases f2 with
      | zero =>
          have : r = [] := List.length_eq_zero.mp (Nat.le_zero.mp h2)
          subst this
          rw [chunkLoopF_nil, chunkLoopF_nil]
      | succ f2 =>
          rw [chunkLoopF, chunkLoopF]
          by_cases hnil : r = []
          · simp [hnil]
          · rw [if_neg hnil, if_neg hnil]
            by_cases hshort : r.length ≤ 3500
            · rw [if_pos hshort, if_pos hshort]
            · rw [if_neg hshort, if_neg hshort]
              have hlt := nextRemaining_length_lt (r := r) (by omega)
              exact congrArg _ (ih f2 (nextRemaining r) (by omega) (by omega))

/-- The defining equation of the `while remaining:` loop
(`bot.py` lines 130-143). -/
theorem chunkLoop_eq (r : List Char) :
    chunkLoop r =
      if r = [] then []
      else if r.length ≤ 3500 then [r]
      else frontChunk r :: chunkLoop (nextRemaining r) := by
  cases r with
  | nil => simp [chunkLoop, chunkLoopF_nil]
  | cons a t =>
      have hnil : (a :: t) ≠ [] := by simp
      rw [if_neg hnil]
      show chunkLoopF (t.length + 1) (a :: t) = _
      rw [chunkLoopF, if_neg hnil]
      by_cases hshort : (a :: t).length ≤ 3500
      · rw [if_pos hshort, if_pos hshort]
      · rw [if_neg hshort, if_neg hshort]
        have hlt := nextRemaining_length_lt (r := a :: t) (by omega)
        refine congrArg _
          (chunkLoopF_fuel_eq t.length (nextRemaining (a :: t)).length _ ?_ le_rfl)
        simp only [List.length_cons] at hlt
        omega

/-- Every chunk the loop emits has at most 3500 characters. -/
theorem chunkLoopF_length_le :
    ∀ (fuel : Nat) (r : List Char), ∀ c ∈ chunkLoopF fuel r, c.length ≤ 3500 := by
  intro fuel
  induction fuel with
  | zero => intro r c hc; simp [chunkLoopF] at hc
  | succ fuel ih =>
      intro r c hc
      rw [chunkLoopF] at hc
      by_cases hnil : r = []
      · rw [if_pos hnil] at hc; simp at hc
      · rw [if_neg hnil] at hc
        by_cases hshort : r.length ≤ 3500
        · rw [if_pos hshort] at hc
          simp only [List.mem_singleton] at hc
          subst hc
          exact hshort
        · rw [if_neg hshort] at hc
          rcases List.mem_cons.mp hc with h | h
          · subst h
            calc (frontChunk r).length
                ≤ (r.take (splitIndex r)).length := pyRstrip_length_le _
              _ ≤ splitIndex r := by simp [List.length_take]
              _ ≤ 3500 := splitIndex_le r
          · exact ih _ _ h

theorem chunkLoop_chunk_length_le (r : List Char) :
    ∀ c ∈ chunkLoop r, c.length ≤ 3500 :=
  chunkLoopF_length_le r.length r

/-! ## The chunk/separator decomposition -/

theorem chunkPiecesF_map_fst :
    ∀ (fuel : Nat) (r : List Char),
      (chunkPiecesF fuel r).map Prod.fst = chunkLoopF fuel r := by
  intro fuel
  induction fuel with
  | zero => intro r; simp [chunkPiecesF, chunkLoopF]
  | succ fuel ih =>
      intro r
      rw [chunkPiecesF, chunkLoopF]
      by_cases hnil : r = []
      · rw [if_pos hnil, if_pos hnil]; rfl
      · rw [if_neg hnil, if_neg hnil]
        by_cases hshort : r.length ≤ 3500
        · rw [if_pos hshort, if_pos hshort]; rfl
        · rw [if_neg hshort, if_neg hshort]
          simp only [List.map_cons]
          exact congrArg _ (ih _)

/-- One iteration's decomposition: chunk, consumed whitespace, and the
new `remaining` reassemble the old `remaining`. -/
theorem chunk_piece_reassemble (r : List Char) :
    frontChunk r ++
      (((r.take (splitIndex r)).reverse.takeWhile isPySpace).reverse ++
        (r.drop (splitIndex r)).takeWhile isPySpace) ++
      nextRemaining r = r := by
  have h1 : frontChunk r ++ ((r.take (splitIndex r)).reverse.takeWhile isPySpace).reverse
      = r.take (splitIndex r) := pyRstrip_append _
  have h2 : (r.drop (splitIndex r)).takeWhile isPySpace ++ nextRemaining r
      = r.drop (splitIndex r) := pyLstrip_append _
  calc frontChunk r ++
        (((r.take (splitIndex r)).reverse.takeWhile isPySpace).reverse ++
          (r.drop (splitIndex r)).takeWhile isPySpace) ++
        nextRemaining r
      = (frontChunk r ++ ((r.take (splitIndex r)).reverse.takeWhile isPySpace).reverse) ++
        ((r.drop (splitIndex r)).takeWhile isPySpace ++ nextRemaining r) := by
        simp [List.append_assoc]
    _ = r.take (splitIndex r) ++ r.drop (splitIndex r) := by rw [h1, h2]
    _ = r := List.take_append_drop ..

theorem chunkPiecesF_reassemble :
    ∀ (fuel : Nat) (r : List Char), r.length ≤ fuel →
      ((chunkPiecesF fuel r).map (fun p => p.1 ++ p.2)).flatten = r := by
  intro fuel
  induction fuel with
  | zero =>
      intro r h
      have : r = [] := List.length_eq_zero.mp (Nat.le_zero.mp h)
      subst this
      simp [chunkPiecesF]
  | succ fuel ih =>
      intro r h
      rw [chunkPiecesF]
      by_cases hnil : r = []
      · rw [if_pos hnil]; simp [hnil]
      · rw [if_neg hnil]
        by_cases hshort : r.length ≤ 3500
        · rw [if_pos hshort]; simp
        · rw [if_neg hshort]
          have hlt := nextRemaining_length_lt (r := r) (by omega)
          have ihr := ih (nextRemaining r) (by omega)
          simp only [List.map_cons, List.flatten_cons, ihr]
          exact chunk_piece_reassemble r

theorem chunkPiecesF_sep_space :
    ∀ (fuel : Nat) (r : List Char),
      ((chunkPiecesF fuel r).all (fun p => p.2.all isPySpace)) = true := by
  intro fuel
  induction fuel with
  | zero => intro r; simp [chunkPiecesF]
  | succ fuel ih =>
      intro r
      rw [chunkPiecesF]
      by_cases hnil : r = []
      · rw [if_pos hnil]; rfl
      · rw [if_neg hnil]
        by_cases hshort : r.length ≤ 3500
        · rw [if_pos hshort]; simp
        · rw [if_neg hshort]
          rw [List.all_cons, Bool.and_eq_true]
          refine ⟨?_, ih _⟩
          rw [List.all_eq_true]
          intro c hc
          rcases List.mem_append.mp hc with h | h
          · rw [List.mem_reverse] at h
            exact List.mem_takeWhile_imp h
          · exact List.mem_takeWhile_imp h

/-! ## Header and message lengths -/

theorem natDecimalDigits_length_le {n k : Nat} (hk : 0 < k) (h : n < 10 ^ k) :
    (natDecimalDigits n).length ≤ k := by
  rw [natDecimalDigits]
  by_cases hn : n = 0
  · rw [if_pos hn]
    simpa using hk
  · rw [if_neg hn]
    simp only [List.length_reverse, List.length_map]
    have hb := Nat.base_pow_length_digits_le 10 n (by omega) hn
    have h10 : 10 * n < 10 ^ (k + 1) := by
      calc 10 * n < 10 * 10 ^ k := by omega
        _ = 10 ^ (k + 1) := by rw [Nat.pow_succ, Nat.mul_comm]
    have hlt : 10 ^ (Nat.digits 10 n).length < 10 ^ (k + 1) :=
      Nat.lt_of_le_of_lt hb h10
    have := (Nat.pow_lt_pow_iff_right (a := 10) (by omega)).mp hlt
    omega

theorem headerChars_length (dateLabel : List Char) (index : Nat) :
    (headerChars dateLabel index).length =
      dateLabel.length + 14 + (natDecimalDigits index).length := by
  rw [headerChars]
  simp only [List.length_append, List.length_cons, List.length_nil]
  have h12 : (" • Страница ".toList).length = 12 := by decide
  rw [h12]
  omega

theorem pySliceTo_length_le {l : List Char} {n : Int} (h : 0 ≤ n) :
    (pySliceTo l n).length ≤ n.toNat := by
  rw [pySliceTo, if_pos h]
  exact List.length_take_le ..

theorem pySliceTo_of_length_le {l : List Char} {n : Int}
    (h : (l.length : Int) ≤ n) : pySliceTo l n = l := by
  have h0 : (0 : Int) ≤ n := le_trans (by positivity) h
  rw [pySliceTo, if_pos h0]
  exact List.take_of_length_le (by omega)

/-- Generic bound: a built message is no longer than 4096 provided its
header alone fits in 4096. -/
theorem buildMessage_length_le {dateLabel chunk : List Char} {index : Nat}
    (h : (headerChars dateLabel index).length ≤ 4096) :
    (buildMessage dateLabel index chunk).length ≤ 4096 := by
  rw [buildMessage, List.length_append]
  have hslice := pySliceTo_length_le
    (l := chunk) (n := 4096 - ((headerChars dateLabel index).length : Int)) (by omega)
  have : (4096 - ((headerChars dateLabel index).length : Int)).toNat
      = 4096 - (headerChars dateLabel index).length := by omega
  omega

theorem buildMessages_getElem {dateLabel text : List Char} {i : Nat} {m : List Char}
    (h : (buildMessages dateLabel text)[i]? = some m) :
    ∃ chunk, (chunkLoop text)[i]? = some chunk ∧ m = buildMessage dateLabel (i + 1) chunk := by
  rw [buildMessages, List.getElem?_map, List.getElem?_enum] at h
  cases hc : (chunkLoop text)[i]? with
  | none => rw [hc] at h; simp [Option.map] at h
  | some chunk =>
      rw [hc] at h
      simp only [Option.map] at h
      exact ⟨chunk, rfl, (Option.some.inj h).symm⟩

/-! ## Pattern predicate toolbox -/

theorem hasPair_cons_iff {x y c : Char} {t : List Char} :
    hasPair x y (c :: t) ↔ (c = x ∧ t.head? = some y) ∨ hasPair x y t := by
  constructor
  · rintro ⟨u, v, h⟩
    cases u with
    | nil =>
        simp only [List.nil_append, List.cons.injEq] at h
        obtain ⟨rfl, rfl⟩ := h
        exact Or.inl ⟨rfl, rfl⟩
    | cons a u' =>
        simp only [List.cons_append, List.cons.injEq] at h
        obtain ⟨rfl, rfl⟩ := h
        exact Or.inr ⟨u', v, rfl⟩
  · rintro (⟨rfl, hh⟩ | ⟨u, v, rfl⟩)
    · cases t with
      | nil => simp at hh
      | cons b t' =>
          simp only [List.head?_cons, Option.some.injEq] at hh
          subst hh
          exact ⟨[], t', rfl⟩
    · exact ⟨c :: u, v, rfl⟩

theorem not_hasPair_nil {x y : Char} : ¬ hasPair x y [] := by
  rintro ⟨u, v, h⟩
  have := congrArg List.length h
  simp only [List.length_nil, List.length_append, List.length_cons] at this
  omega

theorem not_hasPair_singleton {x y c : Char} : ¬ hasPair x y [c] := by
  rintro ⟨u, v, h⟩
  have := congrArg List.length h
  simp [List.length_append] at this
  omega

theorem hasPair_of_tail {x y c : Char} {t : List Char} (h : hasPair x y t) :
    hasPair x y (c :: t) :=
  hasPair_cons_iff.mpr (Or.inr h)

theorem not_hasPair_tail {x y c : Char} {t : List Char} (h : ¬ hasPair x y (c :: t)) :
    ¬ hasPair x y t := fun hp => h (hasPair_of_tail hp)

theorem hasPair_of_middle {x y : Char} {u m v : List Char} (h : hasPair x y m) :
    hasPair x y (u ++ m ++ v) := by
  obtain ⟨a, b, rfl⟩ := h
  exact ⟨u ++ a, b ++ v, by simp [List.append_assoc]⟩

theorem not_hasPair_pyStrip {x y : Char} {l : List Char} (h : ¬ hasPair x y l) :
    ¬ hasPair x y (pyStrip l) := by
  intro hp
  obtain ⟨u, v, hl⟩ := pyStrip_sandwich l
  exact h (hl ▸ hasPair_of_middle hp)

theorem hasTriple_cons_iff {x y z c : Char} {t : List Char} :
    hasTriple x y z (c :: t) ↔ (c = x ∧ ∃ v, t = y :: z :: v) ∨ hasTriple x y z t := by
  constructor
  · rintro ⟨u, v, h⟩
    cases u with
    | nil =>
        simp only [List.nil_append, List.cons.injEq] at h
        obtain ⟨rfl, rfl⟩ := h
        exact Or.inl ⟨rfl, v, rfl⟩
    | cons a u' =>
        simp only [List.cons_append, List.cons.injEq] at h
        obtain ⟨rfl, rfl⟩ := h
        exact Or.inr ⟨u', v, rfl⟩
  · rintro (⟨rfl, v, rfl⟩ | ⟨u, v, rfl⟩)
    · exact ⟨[], v, rfl⟩
    · exact ⟨c :: u, v, rfl⟩

theorem not_hasTriple_short {x y z : Char} {l : List Char} (h : l.length ≤ 2) :
    ¬ hasTriple x y z l := by
  rintro ⟨u, v, rfl⟩
  simp only [List.length_append, List.length_cons] at h
  omega

theorem hasTriple_of_tail {x y z c : Char} {t : List Char} (h : hasTriple x y z t) :
    hasTriple x y z (c :: t) :=
  hasTriple_cons_iff.mpr (Or.inr h)

theorem not_hasTriple_tail {x y z c : Char} {t : List Char}
    (h : ¬ hasTriple x y z (c :: t)) : ¬ hasTriple x y z t :=
  fun hp => h (hasTriple_of_tail hp)

theorem hasTriple_of_middle {x y z : Char} {u m v : List Char} (h : hasTriple x y z m) :
    hasTriple x y z (u ++ m ++ v) := by
  obtain ⟨a, b, rfl⟩ := h
  exact ⟨u ++ a, b ++ v, by simp [List.append_assoc]⟩

theorem not_hasTriple_pyStrip {x y z : Char} {l : List Char} (h : ¬ hasTriple x y z l) :
    ¬ hasTriple x y z (pyStrip l) := by
  intro hp
  obtain ⟨u, v, hl⟩ := pyStrip_sandwich l
  exact h (hl ▸ hasTriple_of_middle hp)

/-! ## Head and membership behaviour of the normalizer stages -/

theorem collapseCR_head (l : List Char) :
    (collapseCR l).head? = l.head?.map (fun c => if c = '\r' then '\n' else c) := by
  cases l with
  | nil => rfl
  | cons a t =>
      cases t with
      | nil => simp [collapseCR, Option.map]
      | cons b rest =>
          by_cases ha : a = '\r'
          · by_cases hb : b = '\n' <;> simp [collapseCR, ha, hb, Option.map]
          · simp [collapseCR, ha, Option.map]

theorem collapseHS_head :
    ∀ l : List Char, (collapseHS l).head? = l.head?.map hs2sp := by
  intro l
  induction l using collapseHS.induct with
  | case1 => rfl
  | case2 c => simp [collapseHS, Option.map]
  | case3 a b rest h ih =>
      rw [collapseHS, if_pos h, ih]
      rw [Bool.and_eq_true] at h
      simp only [List.head?_cons, Option.map]
      have ha : hs2sp a = ' ' := by simp [hs2sp, h.1]
      have hb : hs2sp b = ' ' := by simp [hs2sp, h.2]
      rw [ha, hb]
  | case4 a b rest h ih =>
      rw [collapseHS, if_neg h]
      simp [Option.map]

theorem dropSpaceAfterNL_head_false (l : List Char) :
    (dropSpaceAfterNL false l).head? = l.head? := by
  cases l with
  | nil => rfl
  | cons c rest => simp [dropSpaceAfterNL]

theorem dropSpaceAfterNL_true_head_ne_space :
    ∀ {l : List Char} {c : Char},
      (dropSpaceAfterNL true l).head? = some c → c ≠ ' ' := by
  intro l
  induction l with
  | nil => intro c h; simp [dropSpaceAfterNL] at h
  | cons a rest ih =>
      intro c h
      rw [dropSpaceAfterNL] at h
      by_cases ha : a = ' '
      · rw [if_pos (by simp [ha])] at h
        exact ih h
      · rw [if_neg (by simp [ha])] at h
        simp only [List.head?_cons, Option.some.injEq] at h
        subst h
        exact ha

theorem collapseNL_head :
    ∀ l : List Char, (collapseNL l).head? = l.head? := by
  intro l
  induction l using collapseNL.induct with
  | case1 => rfl
  | case2 a => rfl
  | case3 a b => rfl
  | case4 a b c rest h ih =>
      rw [collapseNL, if_pos h, ih]
      have h3 := h
      simp only [Bool.and_eq_true, decide_eq_true_eq] at h3
      simp [h3.1.1, h3.1.2]
  | case5 a b c rest h ih =>
      rw [collapseNL, if_neg h]
      simp

theorem mem_collapseCR :
    ∀ {l : List Char} {c : Char}, c ∈ collapseCR l → c ∈ l ∨ c = '\n' := by
  intro l
  induction l using collapseCR.induct with
  | case1 => intro c h; simp [collapseCR] at h
  | case2 d =>
      intro c h
      simp only [collapseCR, List.mem_singleton] at h
      by_cases hd : d = '\r'
      · rw [if_pos hd] at h; exact Or.inr h
      · rw [if_neg hd] at h; exact Or.inl (by simp [h])
  | case3 rest ih =>
      intro c h
      have hred : collapseCR ('\r' :: '\n' :: rest) = '\n' :: collapseCR rest := by
        simp [collapseCR]
      rw [hred] at h
      rcases List.mem_cons.mp h with h | h
      · exact Or.inr h
      · rcases ih h with h | h
        · exact Or.inl (List.mem_cons_of_mem _ (List.mem_cons_of_mem _ h))
        · exact Or.inr h
  | case4 b rest hb ih =>
      intro c h
      have hred : collapseCR ('\r' :: b :: rest) = '\n' :: collapseCR (b :: rest) := by
        simp [collapseCR, hb]
      rw [hred] at h
      rcases List.mem_cons.mp h with h | h
      · exact Or.inr h
      · rcases ih h with h | h
        · exact Or.inl (List.mem_cons_of_mem _ h)
        · exact Or.inr h
  | case5 a b rest ha ih =>
      intro c h
      have hred : collapseCR (a :: b :: rest) = a :: collapseCR (b :: rest) := by
        simp [collapseCR, ha]
      rw [hred] at h
      rcases List.mem_cons.mp h with h | h
      · exact Or.inl (by simp [h])
      · rcases ih h with h | h
        · exact Or.inl (List.mem_cons_of_mem a h)
        · exact Or.inr h

theorem mem_collapseHS :
    ∀ {l : List Char} {c : Char}, c ∈ collapseHS l → c ∈ l ∨ c = ' ' := by
  intro l
  induction l using collapseHS.induct with
  | case1 => intro c h; simp [collapseHS] at h
  | case2 d =>
      intro c h
      simp only [collapseHS, List.mem_singleton] at h
      subst h
      by_cases hd : isHS d
      · exact Or.inr (by simp [hs2sp, hd])
      · exact Or.inl (by simp [hs2sp, hd])
  | case3 a b rest h ih =>
      intro c hc
      rw [collapseHS, if_pos h] at hc
      rcases ih hc with h' | h'
      · exact Or.inl (List.mem_cons_of_mem a h')
      · exact Or.inr h'
  | case4 a b rest h ih =>
      intro c hc
      rw [collapseHS, if_neg h] at hc
      rcases List.mem_cons.mp hc with h' | h'
      · subst h'
        by_cases ha : isHS a
        · exact Or.inr (by simp [hs2sp, ha])
        · exact Or.inl (by simp [hs2sp, ha])
      · rcases ih h' with h'' | h''
        · exact Or.inl (List.mem_cons_of_mem a h'')
        · exact Or.inr h''

theorem mem_dropSpaceAfterNL :
    ∀ {l : List Char} {flag : Bool} {c : Char},
      c ∈ dropSpaceAfterNL flag l → c ∈ l := by
  intro l
  induction l with
  | nil => intro flag c h; simp [dropSpaceAfterNL] at h
  | cons a rest ih =>
      intro flag c h
      rw [dropSpaceAfterNL] at h
      by_cases hcond : (flag && a == ' ') = true
      · rw [if_pos hcond] at h
        exact List.mem_cons_of_mem a (ih h)
      · rw [if_neg hcond] at h
        rcases List.mem_cons.mp h with h' | h'
        · exact h' ▸ List.mem_cons_self a rest
        · exact List.mem_cons_of_mem a (ih h')

theorem mem_collapseNL :
    ∀ {l : List Char} {c : Char}, c ∈ collapseNL l → c ∈ l := by
  intro l
  induction l using collapseNL.induct with
  | case1 => intro c h; simp [collapseNL] at h
  | case2 a => intro c h; simpa [collapseNL] using h
  | case3 a b => intro c h; simpa [collapseNL] using h
  | case4 a b c rest h ih =>
      intro d hd
      rw [collapseNL, if_pos h] at hd
      exact List.mem_cons_of_mem a (ih hd)
  | case5 a b c rest h ih =>
      intro d hd
      rw [collapseNL, if_neg h] at hd
      rcases List.mem_cons.mp hd with h' | h'
      · exact h' ▸ List.mem_cons_self a _
      · exact List.mem_cons_of_mem a (ih h')

theorem mem_replaceSpecials :
    ∀ {l : List Char} {c : Char}, c ∈ replaceSpecials l → c ∈ l ∨ c = ' ' := by
  intro l c h
  rw [replaceSpecials] at h
  obtain ⟨d, hd, hdc⟩ := List.mem_map.mp h
  have hdl : d ∈ l := (List.mem_filter.mp hd).1
  by_cases hnb : d = noBreakSpace
  · rw [if_pos hnb] at hdc
    exact Or.inr hdc.symm
  · rw [if_neg hnb] at hdc
    exact Or.inl (hdc ▸ hdl)

/-! ## Output invariants of the normalizer stages -/

theorem hs2sp_eq_space {x : Char} : hs2sp x = ' ' ↔ isHS x = true := by
  rw [hs2sp]
  by_cases hx : isHS x
  · simp [hx]
  · simp only [if_neg hx]
    constructor
    · intro h; subst h; simp [isHS] at hx
    · intro h; exact absurd h hx

theorem hs2sp_ne_tab {x : Char} : hs2sp x ≠ '\t' := by
  rw [hs2sp]
  by_cases hx : isHS x
  · simp [hx]
  · simp only [if_neg hx]
    intro h; subst h; simp [isHS] at hx

theorem collapseCR_no_cr : ∀ {l : List Char}, '\r' ∉ collapseCR l := by
  intro l
  induction l using collapseCR.induct with
  | case1 => simp [collapseCR]
  | case2 d =>
      simp only [collapseCR, List.mem_singleton]
      by_cases hd : d = '\r'
      · rw [if_pos hd]; decide
      · rw [if_neg hd]; exact fun h => hd h.symm
  | case3 rest ih =>
      have hred : collapseCR ('\r' :: '\n' :: rest) = '\n' :: collapseCR rest := by
        simp [collapseCR]
      rw [hred]
      intro h
      rcases List.mem_cons.mp h with h | h
      · exact absurd h (by decide)
      · exact ih h
  | case4 b rest hb ih =>
      have hred : collapseCR ('\r' :: b :: rest) = '\n' :: collapseCR (b :: rest) := by
        simp [collapseCR, hb]
      rw [hred]
      intro h
      rcases List.mem_cons.mp h with h | h
      · exact absurd h (by decide)
      · exact ih h
  | case5 a b rest ha ih =>
      have hred : collapseCR (a :: b :: rest) = a :: collapseCR (b :: rest) := by
        simp [collapseCR, ha]
      rw [hred]
      intro h
      rcases List.mem_cons.mp h with h | h
      · exact ha h.symm
      · exact ih h

theorem collapseHS_no_tab : ∀ {l : List Char}, '\t' ∉ collapseHS l := by
  intro l
  induction l using collapseHS.induct with
  | case1 => simp [collapseHS]
  | case2 d =>
      simp only [collapseHS, List.mem_singleton]
      exact fun h => hs2sp_ne_tab h.symm
  | case3 a b rest h ih => rw [collapseHS, if_pos h]; exact ih
  | case4 a b rest h ih =>
      rw [collapseHS, if_neg h]
      intro hc
      rcases List.mem_cons.mp hc with hc | hc
      · exact hs2sp_ne_tab hc.symm
      · exact ih hc

theorem collapseHS_no_doubleSpace :
    ∀ {l : List Char}, ¬ hasPair ' ' ' ' (collapseHS l) := by
  intro l
  induction l using collapseHS.induct with
  | case1 => simpa [collapseHS] using not_hasPair_nil
  | case2 d => simpa [collapseHS] using not_hasPair_singleton
  | case3 a b rest h ih => rw [collapseHS, if_pos h]; exact ih
  | case4 a b rest h ih =>
      rw [collapseHS, if_neg h]
      intro hp
      rcases hasPair_cons_iff.mp hp with ⟨ha, hh⟩ | hp'
      · have hb : hs2sp b = ' ' := by
          rw [collapseHS_head (b :: rest)] at hh
          simpa [Option.map] using hh
        refine h ?_
        rw [Bool.and_eq_true]
        exact ⟨hs2sp_eq_space.mp ha, hs2sp_eq_space.mp hb⟩
      · exact ih hp'

theorem dropSpaceAfterNL_no_nlSpace :
    ∀ {l : List Char} {flag : Bool}, ¬ hasPair '\n' ' ' (dropSpaceAfterNL flag l) := by
  intro l
  induction l with
  | nil => intro flag; simpa [dropSpaceAfterNL] using not_hasPair_nil
  | cons a rest ih =>
      intro flag
      rw [dropSpaceAfterNL]
      by_cases hcond : (flag && a == ' ') = true
      · rw [if_pos hcond]; exact ih
      · rw [if_neg hcond]
        intro hp
        rcases hasPair_cons_iff.mp hp with ⟨ha, hh⟩ | hp'
        · subst ha
          have : (dropSpaceAfterNL true rest).head? = some ' ' := by
            simpa using hh
          exact dropSpaceAfterNL_true_head_ne_space this rfl
        · exact ih hp'

theorem dropSpaceAfterNL_preserves_noDoubleSpace :
    ∀ {l : List Char} {flag : Bool}, ¬ hasPair ' ' ' ' l →
      ¬ hasPair ' ' ' ' (dropSpaceAfterNL flag l) := by
  intro l
  induction l with
  | nil => intro flag _; simpa [dropSpaceAfterNL] using not_hasPair_nil
  | cons a rest ih =>
      intro flag hl
      rw [dropSpaceAfterNL]
      by_cases hcond : (flag && a == ' ') = true
      · rw [if_pos hcond]; exact ih (not_hasPair_tail hl)
      · rw [if_neg hcond]
        intro hp
        rcases hasPair_cons_iff.mp hp with ⟨ha, hh⟩ | hp'
        · subst ha
          have hflag : (' ' == '\n') = false := by decide
          rw [hflag] at hh
          rw [dropSpaceAfterNL_head_false rest] at hh
          exact hl (hasPair_cons_iff.mpr (Or.inl ⟨rfl, hh⟩))
        · exact ih (not_hasPair_tail hl) hp'

/-- If the output of `collapseNL` starts with two line feeds, so did its
input (the scanner never creates a leading `"\n\n"` out of other
characters). -/
theorem collapseNL_cons2_nn :
    ∀ {b c : Char} {rest v : List Char},
      collapseNL (b :: c :: rest) = '\n' :: '\n' :: v → b = '\n' ∧ c = '\n' := by
  intro b c rest v h
  have hb : b = '\n' := by
    have hh := collapseNL_head (b :: c :: rest)
    rw [h] at hh
    simpa using hh.symm
  cases rest with
  | nil =>
      have : ([b, c] : List Char) = '\n' :: '\n' :: v := by
        simpa [collapseNL] using h
      simp only [List.cons.injEq] at this
      exact ⟨hb, this.2.1⟩
  | cons d rest' =>
      rw [collapseNL] at h
      by_cases hcond :
          (decide (b = '\n') && decide (c = '\n') && decide (d = '\n')) = true
      · simp only [Bool.and_eq_true, decide_eq_true_eq] at hcond
        exact ⟨hb, hcond.1.2⟩
      · rw [if_neg hcond] at h
        simp only [List.cons.injEq] at h
        have hh := collapseNL_head (c :: d :: rest')
        rw [h.2] at hh
        simp only [List.head?_cons, Option.some.injEq] at hh
        exact ⟨hb, hh.symm⟩

theorem collapseNL_no_tripleNL :
    ∀ {l : List Char}, ¬ hasTriple '\n' '\n' '\n' (collapseNL l) := by
  intro l
  induction l using collapseNL.induct with
  | case1 => exact not_hasTriple_short (by simp [collapseNL])
  | case2 a => exact not_hasTriple_short (by simp [collapseNL])
  | case3 a b => exact not_hasTriple_short (by simp [collapseNL])
  | case4 a b c rest h ih => rw [collapseNL, if_pos h]; exact ih
  | case5 a b c rest h ih =>
      rw [collapseNL, if_neg h]
      intro hp
      rcases hasTriple_cons_iff.mp hp with ⟨ha, v, hv⟩ | hp'
      · obtain ⟨hbn, hcn⟩ := collapseNL_cons2_nn hv
        exact h (by simp [ha, hbn, hcn])
      · exact ih hp'

theorem collapseNL_pair_sub :
    ∀ {l : List Char} {x y : Char}, hasPair x y (collapseNL l) → hasPair x y l := by
  intro l
  induction l using collapseNL.induct with
  | case1 => intro x y hp; rw [collapseNL] at hp; exact absurd hp not_hasPair_nil
  | case2 a => intro x y hp; rwa [collapseNL] at hp
  | case3 a b => intro x y hp; rwa [collapseNL] at hp
  | case4 a b c rest h ih =>
      intro x y hp
      rw [collapseNL, if_pos h] at hp
      exact hasPair_of_tail (ih hp)
  | case5 a b c rest h ih =>
      intro x y hp
      rw [collapseNL, if_neg h] at hp
      rcases hasPair_cons_iff.mp hp with ⟨ha, hh⟩ | hp'
      · rw [collapseNL_head (b :: c :: rest)] at hh
        simp only [List.head?_cons, Option.some.injEq] at hh
        exact hasPair_cons_iff.mpr (Or.inl ⟨ha, by simp [hh]⟩)
      · exact hasPair_of_tail (ih hp')

/-! ## Each stage fixes an already-normalized string -/

theorem map_id_of_mem {l : List Char} {f : Char → Char}
    (h : ∀ a ∈ l, f a = a) : l.map f = l := by
  induction l with
  | nil => rfl
  | cons a t ih =>
      rw [List.map_cons, h a (List.mem_cons_self a t),
        ih (fun b hb => h b (List.mem_cons_of_mem a hb))]

theorem replaceSpecials_fix {l : List Char}
    (h1 : softHyphen ∉ l) (h2 : zeroWidthSpace ∉ l) (h3 : noBreakSpace ∉ l) :
    replaceSpecials l = l := by
  rw [replaceSpecials]
  have hf : l.filter (fun c => !(c == softHyphen || c == zeroWidthSpace)) = l := by
    rw [List.filter_eq_self]
    intro a ha
    simp only [Bool.not_eq_true', Bool.or_eq_false_iff, beq_eq_false_iff_ne]
    exact ⟨fun hq => h1 (hq ▸ ha), fun hq => h2 (hq ▸ ha)⟩
  rw [hf]
  refine map_id_of_mem (fun a ha => ?_)
  have hne : a ≠ noBreakSpace := fun hq => h3 (hq ▸ ha)
  rw [if_neg hne]

theorem collapseCR_fix : ∀ {l : List Char}, '\r' ∉ l → collapseCR l = l := by
  intro l
  induction l using collapseCR.induct with
  | case1 => intro _; rfl
  | case2 d =>
      intro h
      have hd : d ≠ '\r' := fun hq => h (by simp [hq])
      simp [collapseCR, hd]
  | case3 rest ih =>
      intro h
      exact absurd (List.mem_cons_self _ _) h
  | case4 b rest hb ih =>
      intro h
      exact absurd (List.mem_cons_self _ _) h
  | case5 a b rest ha ih =>
      intro h
      have hred : collapseCR (a :: b :: rest) = a :: collapseCR (b :: rest) := by
        simp [collapseCR, ha]
      rw [hred, ih (fun hm => h (List.mem_cons_of_mem a hm))]

theorem hs2sp_eq_self {x : Char} (h : x ≠ '\t') : hs2sp x = x := by
  rw [hs2sp]
  by_cases hx : isHS x
  · have : x = ' ' := by
      rcases Bool.or_eq_true _ _ |>.mp hx with h' | h'
      · exact absurd (by simpa using h') h
      · simpa using h'
    simp [this]
  · rw [if_neg hx]

theorem collapseHS_fix :
    ∀ {l : List Char}, '\t' ∉ l → ¬ hasPair ' ' ' ' l → collapseHS l = l := by
  intro l
  induction l using collapseHS.induct with
  | case1 => intro _ _; rfl
  | case2 d =>
      intro ht _
      rw [collapseHS, hs2sp_eq_self (fun hq => ht (by simp [hq]))]
  | case3 a b rest h ih =>
      intro ht hp
      rw [Bool.and_eq_true] at h
      have ha : a = ' ' := by
        rcases Bool.or_eq_true _ _ |>.mp h.1 with h' | h'
        · exact absurd (by simpa using h') (fun hq => ht (by simp [hq]))
        · simpa using h'
      have hb : b = ' ' := by
        rcases Bool.or_eq_true _ _ |>.mp h.2 with h' | h'
        · exact absurd (by simpa using h')
            (fun hq => ht (by simp [hq]))
        · simpa using h'
      exact absurd ⟨[], rest, by simp [ha, hb]⟩ hp
  | case4 a b rest h ih =>
      intro ht hp
      rw [collapseHS, if_neg h,
        hs2sp_eq_self (fun hq => ht (by simp [hq])),
        ih (fun hm => ht (List.mem_cons_of_mem a hm)) (not_hasPair_tail hp)]

theorem dropSpaceAfterNL_fix :
    ∀ {l : List Char} {flag : Bool}, (flag = true → l.head? ≠ some ' ') →
      ¬ hasPair '\n' ' ' l → dropSpaceAfterNL flag l = l := by
  intro l
  induction l with
  | nil => intro flag _ _; rfl
  | cons a rest ih =>
      intro flag hflag hp
      rw [dropSpaceAfterNL]
      by_cases hcond : (flag && a == ' ') = true
      · rw [Bool.and_eq_true] at hcond
        exact absurd (by simp [beq_iff_eq.mp hcond.2]) (hflag hcond.1)
      · rw [if_neg hcond]
        have htail : (a == '\n') = true → rest.head? ≠ some ' ' := by
          intro ha hh
          exact hp (hasPair_cons_iff.mpr (Or.inl ⟨beq_iff_eq.mp ha, hh⟩))
        rw [ih htail (not_hasPair_tail hp)]

theorem collapseNL_fix :
    ∀ {l : List Char}, ¬ hasTriple '\n' '\n' '\n' l → collapseNL l = l := by
  intro l
  induction l using collapseNL.induct with
  | case1 => intro _; rfl
  | case2 a => intro _; rfl
  | case3 a b => intro _; rfl
  | case4 a b c rest h ih =>
      intro hp
      simp only [Bool.and_eq_true, decide_eq_true_eq] at h
      exact absurd ⟨[], rest, by simp [h.1.1, h.1.2, h.2]⟩ hp
  | case5 a b c rest h ih =>
      intro hp
      rw [collapseNL, if_neg h, ih (not_hasTriple_tail hp)]

theorem dropWhile_eq_self_of_head {p : Char → Bool} {m : List Char}
    (h : ∀ c, m.head? = some c → p c = false) : m.dropWhile p = m := by
  cases m with
  | nil => rfl
  | cons a t =>
      rw [List.dropWhile_cons, if_neg]
      rw [h a rfl]
      simp

theorem pyStrip_fix {l : List Char}
    (hh : ∀ c, l.head? = some c → isPySpace c = false)
    (hl : ∀ c, l.getLast? = some c → isPySpace c = false) :
    pyStrip l = l := by
  have hr : pyRstrip l = l := by
    rw [pyRstrip, dropWhile_eq_self_of_head, List.reverse_reverse]
    intro c hc
    rw [List.head?_reverse] at hc
    exact hl c hc
  rw [pyStrip, hr, pyLstrip, dropWhile_eq_self_of_head hh]

/-! ## The normalizer's output satisfies every stage's fixpoint invariant -/

theorem normalize_text_invariants (l : List Char) :
    softHyphen ∉ normalize_text l ∧ zeroWidthSpace ∉ normalize_text l ∧
    noBreakSpace ∉ normalize_text l ∧ '\r' ∉ normalize_text l ∧
    '\t' ∉ normalize_text l ∧ ¬ hasPair ' ' ' ' (normalize_text l) ∧
    ¬ hasPair '\n' ' ' (normalize_text l) ∧
    ¬ hasTriple '\n' '\n' '\n' (normalize_text l) ∧
    (∀ c, (normalize_text l).head? = some c → isPySpace c = false) ∧
    (∀ c, (normalize_text l).getLast? = some c → isPySpace c = false) := by
  by_cases hl : l = []
  · rw [normalize_text, if_pos hl]
    refine ⟨by simp, by simp, by simp, by simp, by simp, not_hasPair_nil,
      not_hasPair_nil, not_hasTriple_short (by simp), ?_, ?_⟩
    · intro c hc; simp at hc
    · intro c hc; simp at hc
  · rw [normalize_text, if_neg hl]
    set z1 := replaceSpecials l with hz1
    set z2 := collapseCR z1 with hz2
    set z3 := collapseHS z2 with hz3
    set z4 := dropSpaceAfterNL false z3 with hz4
    set z5 := collapseNL z4 with hz5
    -- the three replaced characters never reappear
    have hsh1 : softHyphen ∉ z1 := by
      rw [hz1, replaceSpecials]
      intro hm
      obtain ⟨d, hd, hdc⟩ := List.mem_map.mp hm
      have := (List.mem_filter.mp hd).2
      by_cases hnb : d = noBreakSpace
      · rw [if_pos hnb] at hdc; exact absurd hdc.symm (by decide)
      · rw [if_neg hnb] at hdc
        subst hdc
        simp at this
    have hzw1 : zeroWidthSpace ∉ z1 := by
      rw [hz1, replaceSpecials]
      intro hm
      obtain ⟨d, hd, hdc⟩ := List.mem_map.mp hm
      have := (List.mem_filter.mp hd).2
      by_cases hnb : d = noBreakSpace
      · rw [if_pos hnb] at hdc; exact absurd hdc.symm (by decide)
      · rw [if_neg hnb] at hdc
        subst hdc
        simp at this
    have hnb1 : noBreakSpace ∉ z1 := by
      rw [hz1, replaceSpecials]
      intro hm
      obtain ⟨d, hd, hdc⟩ := List.mem_map.mp hm
      by_cases hnb : d = noBreakSpace
      · rw [if_pos hnb] at hdc; exact absurd hdc.symm (by decide)
      · rw [if_neg hnb] at hdc; exact hnb (hdc ▸ rfl)
    -- membership propagation up to z5
    have hmem5 : ∀ c : Char, c ∈ z5 → c ∈ z1 ∨ c = '\n' ∨ c = ' ' := by
      intro c hc
      have hc4 : c ∈ z4 := mem_collapseNL hc
      have hc3 : c ∈ z3 := mem_dropSpaceAfterNL hc4
      rcases mem_collapseHS hc3 with hc2 | hsp
      · rcases mem_collapseCR hc2 with hc1 | hnl
        · exact Or.inl hc1
        · exact Or.inr (Or.inl hnl)
      · exact Or.inr (Or.inr hsp)
    have hsh : softHyphen ∉ pyStrip z5 := by
      intro hm
      rcases hmem5 _ (mem_pyStrip hm) with h | h | h
      · exact hsh1 h
      · exact absurd h (by decide)
      · exact absurd h (by decide)
    have hzw : zeroWidthSpace ∉ pyStrip z5 := by
      intro hm
      rcases hmem5 _ (mem_pyStrip hm) with h | h | h
      · exact hzw1 h
      · exact absurd h (by decide)
      · exact absurd h (by decide)
    have hnb : noBreakSpace ∉ pyStrip z5 := by
      intro hm
      rcases hmem5 _ (mem_pyStrip hm) with h | h | h
      · exact hnb1 h
      · exact absurd h (by decide)
      · exact absurd h (by decide)
    -- no carriage returns after z2
    have hcr : '\r' ∉ pyStrip z5 := by
      intro hm
      have h4 : '\r' ∈ z4 := mem_collapseNL (mem_pyStrip hm)
      have h3 : '\r' ∈ z3 := mem_dropSpaceAfterNL h4
      rcases mem_collapseHS h3 with h2 | hsp
      · exact collapseCR_no_cr h2
      · exact absurd hsp (by decide)
    -- no tabs after z3
    have htab : '\t' ∉ pyStrip z5 := by
      intro hm
      have h4 : '\t' ∈ z4 := mem_collapseNL (mem_pyStrip hm)
      exact collapseHS_no_tab (mem_dropSpaceAfterNL h4)
    -- no double spaces after z3 (preserved afterwards)
    have hss : ¬ hasPair ' ' ' ' (pyStrip z5) := by
      refine not_hasPair_pyStrip (fun hp => ?_)
      exact dropSpaceAfterNL_preserves_noDoubleSpace
        collapseHS_no_doubleSpace (collapseNL_pair_sub hp)
    -- no space after a newline, established at z4 and preserved
    have hnlsp : ¬ hasPair '\n' ' ' (pyStrip z5) := by
      refine not_hasPair_pyStrip (fun hp => ?_)
      exact dropSpaceAfterNL_no_nlSpace (collapseNL_pair_sub hp)
    -- no triple newline, established at z5 and preserved
    have htriple : ¬ hasTriple '\n' '\n' '\n' (pyStrip z5) :=
      not_hasTriple_pyStrip collapseNL_no_tripleNL
    exact ⟨hsh, hzw, hnb, hcr, htab, hss, hnlsp, htriple,
      fun c hc => pyStrip_head_not_space hc,
      fun c hc => pyStrip_getLast_not_space hc⟩

/-- Core of claim C4: `normalize_text` output passes through every stage
unchanged, so the normalizer is idempotent. -/
theorem normalize_text_fix_of_invariants {y : List Char}
    (h1 : softHyphen ∉ y) (h2 : zeroWidthSpace ∉ y) (h3 : noBreakSpace ∉ y)
    (h4 : '\r' ∉ y) (h5 : '\t' ∉ y) (h6 : ¬ hasPair ' ' ' ' y)
    (h7 : ¬ hasPair '\n' ' ' y) (h8 : ¬ hasTriple '\n' '\n' '\n' y)
    (h9 : ∀ c, y.head? = some c → isPySpace c = false)
    (h10 : ∀ c, y.getLast? = some c → isPySpace c = false) :
    normalize_text y = y := by
  by_cases hy : y = []
  · rw [normalize_text, if_pos hy, hy]
  · rw [normalize_text, if_neg hy, replaceSpecials_fix h1 h2 h3, collapseCR_fix h4,
      collapseHS_fix h5 h6, dropSpaceAfterNL_fix (fun hf => absurd hf (by simp)) h7,
      collapseNL_fix h8, pyStrip_fix h9 h10]

/-! ## Remaining small helpers -/

theorem lastIdxOf_some_of_mem {c : Char} {l : List Char} (h : c ∈ l) :
    ∃ i, lastIdxOf c l = some i := by
  cases hl : lastIdxOf c l with
  | none => exact absurd h (lastIdxOf_none.mp hl)
  | some i => exact ⟨i, rfl⟩

theorem splitIndex_of_nl {r : List Char} {i : Nat}
    (h : lastIdxOf '\n' (r.take 3500) = some i) : splitIndex r = i := by
  simp only [splitIndex, h]

theorem splitIndex_of_space {r : List Char} {i : Nat}
    (hn : lastIdxOf '\n' (r.take 3500) = none)
    (h : lastIdxOf ' ' (r.take 3500) = some i) : splitIndex r = i := by
  simp only [splitIndex, hn, h]

theorem splitIndex_of_none {r : List Char}
    (hn : lastIdxOf '\n' (r.take 3500) = none)
    (hs : lastIdxOf ' ' (r.take 3500) = none) : splitIndex r = 3500 := by
  simp only [splitIndex, hn, hs]

theorem clearedBeforeRepliesAux_true :
    ∀ l : List BotEvent, clearedBeforeRepliesAux true l = true := by
  intro l
  induction l with
  | nil => rfl
  | cons e rest ih =>
      rw [clearedBeforeRepliesAux]
      by_cases he : e = .clearState
      · rw [if_pos he]; exact ih
      · rw [if_neg he]
        have : (isOutcomeReply e && !true) = false := by simp
        rw [this, if_neg (by simp)]
        exact ih

theorem digits_ten_one : Nat.digits 10 1 = [1] := by
  rw [Nat.digits_def' (b := 10) (by norm_num) (by norm_num)]
  norm_num

theorem natDecimalDigits_one : natDecimalDigits 1 = ['1'] := by
  rw [natDecimalDigits, if_neg (by norm_num), digits_ten_one]
  rfl

/-! # The claims -/

/-- C1 (counterexample): as stated — for *every* date label — the claim
fails: with a 5000-character date label the header alone exceeds 4096,
and the body slice `chunk[:4096 - len(header)]` cannot compensate, so
the outbound message is longer than the hard ceiling. -/
theorem c1_counterexample :
    ¬ (∀ (dateLabel text : List Char), text ≠ [] →
        ∀ m ∈ buildMessages dateLabel text, m.length ≤ 4096) := by
  intro h
  have hchunk : chunkLoop ("Hello".toList) = ["Hello".toList] := by decide
  have hmem : buildMessage (List.replicate 5000 'a') 1 ("Hello".toList) ∈
      buildMessages (List.replicate 5000 'a') ("Hello".toList) := by
    rw [buildMessages, hchunk]
    show buildMessage (List.replicate 5000 'a') 1 ("Hello".toList) ∈
      [buildMessage (List.replicate 5000 'a') (0 + 1) ("Hello".toList)]
    exact List.mem_singleton.mpr rfl
  have hlen := h (List.replicate 5000 'a') ("Hello".toList) (by decide) _ hmem
  have hhdr : (headerChars (List.replicate 5000 'a') 1).length = 5015 := by
    rw [headerChars_length, natDecimalDigits_one]
    simp only [List.length_replicate, List.length_singleton]
  have hbody : pySliceTo ("Hello".toList)
      (4096 - ((headerChars (List.replicate 5000 'a') 1).length : Int)) = [] := by
    rw [hhdr]
    decide
  have hmsg : (buildMessage (List.replicate 5000 'a') 1 ("Hello".toList)).length
      = 5015 := by
    rw [buildMessage, List.length_append, hbody, hhdr]
    rfl
  rw [hmsg] at hlen
  omega

/-- C1 (amended): every outbound message built by the chunker whose
header itself fits within the 4096-character hard ceiling has total
length at most 4096 — the body is truncated to
`chunk[:4096 - len(header)]`.  (The real headers use a 10-character
date label, so this covers every page index of fewer than 4073 decimal
digits.) -/
theorem c1_message_length (dateLabel text : List Char) (i : Nat) (m : List Char)
    (hm : (buildMessages dateLabel text)[i]? = some m)
    (hheader : (headerChars dateLabel (i + 1)).length ≤ 4096) :
    m.length ≤ 4096 := by
  obtain ⟨chunk, hc, rfl⟩ := buildMessages_getElem hm
  exact buildMessage_length_le hheader

theorem c1_message_length_witness :
    (buildMessage ("2024-01-01".toList) 1 ("Hi".toList)).length ≤ 4096 := by
  have hchunk : chunkLoop ("Hi".toList) = ["Hi".toList] := by decide
  have hm : (buildMessages ("2024-01-01".toList) ("Hi".toList))[0]? =
      some (buildMessage ("2024-01-01".toList) 1 ("Hi".toList)) := by
    rw [buildMessages, hchunk]
    rfl
  have hh : (headerChars ("2024-01-01".toList) 1).length ≤ 4096 := by
    rw [headerChars_length, natDecimalDigits_one]
    decide
  exact c1_message_length ("2024-01-01".toList) ("Hi".toList) 0
    (buildMessage ("2024-01-01".toList) 1 ("Hi".toList)) hm hh

/-- C2: for remaining text longer than the 3500-character budget the
split index is the right-most line feed within the first 3500
characters; failing that, the right-most space there; failing both,
exactly 3500 — and every chunk the loop produces has length at most
3500. -/
theorem c2_split_choice (r : List Char) (hlen : 3500 < r.length) :
    ('\n' ∈ r.take 3500 →
      splitIndex r < 3500 ∧ (r.take 3500)[splitIndex r]? = some '\n' ∧
        ∀ j, splitIndex r < j → (r.take 3500)[j]? ≠ some '\n') ∧
    ('\n' ∉ r.take 3500 → ' ' ∈ r.take 3500 →
      splitIndex r < 3500 ∧ (r.take 3500)[splitIndex r]? = some ' ' ∧
        ∀ j, splitIndex r < j → (r.take 3500)[j]? ≠ some ' ') ∧
    ('\n' ∉ r.take 3500 → ' ' ∉ r.take 3500 → splitIndex r = 3500) ∧
    (∀ c ∈ chunkLoop r, c.length ≤ 3500) := by
  have htake : (r.take 3500).length = 3500 := by
    rw [List.length_take]
    omega
  refine ⟨?_, ?_, ?_, chunkLoop_chunk_length_le r⟩
  · intro hmem
    obtain ⟨i, hi⟩ := lastIdxOf_some_of_mem hmem
    have hs := splitIndex_of_nl (r := r) hi
    rw [hs]
    have hlt := lastIdxOf_lt_length hi
    exact ⟨by omega, lastIdxOf_getElem hi, lastIdxOf_maximal hi⟩
  · intro hnl hsp
    have hn : lastIdxOf '\n' (r.take 3500) = none := lastIdxOf_none.mpr hnl
    obtain ⟨i, hi⟩ := lastIdxOf_some_of_mem hsp
    have hs := splitIndex_of_space hn hi
    rw [hs]
    have hlt := lastIdxOf_lt_length hi
    exact ⟨by omega, lastIdxOf_getElem hi, lastIdxOf_maximal hi⟩
  · intro hnl hsp
    exact splitIndex_of_none (lastIdxOf_none.mpr hnl) (lastIdxOf_none.mpr hsp)

theorem c2_split_choice_witness :
    splitIndex ('\n' :: List.replicate 3500 'a') < 3500 ∧
      (('\n' :: List.replicate 3500 'a').take 3500)[
        splitIndex ('\n' :: List.replicate 3500 'a')]? = some '\n' := by
  have h := c2_split_choice ('\n' :: List.replicate 3500 'a')
    (by rw [List.length_cons, List.length_replicate]; omega)
  have hm : '\n' ∈ ('\n' :: List.replicate 3500 'a').take 3500 := by decide
  exact ⟨(h.1 hm).1, (h.1 hm).2.1⟩

/-- C3: the chunk bodies, interleaved with the whitespace consumed at
each cut point, reassemble the chunker's input exactly, and every
consumed character is whitespace. -/
theorem c3_reconstruction (text : List Char) :
    (chunkPieces text).map Prod.fst = chunkLoop text ∧
    ((chunkPieces text).map (fun p => p.1 ++ p.2)).flatten = text ∧
    (chunkPieces text).all (fun p => p.2.all isPySpace) = true :=
  ⟨chunkPiecesF_map_fst text.length text,
   chunkPiecesF_reassemble text.length text le_rfl,
   chunkPiecesF_sep_space text.length text⟩

/-- C4: the text normalizer is idempotent. -/
theorem c4_normalize_idempotent (l : List Char) :
    normalize_text (normalize_text l) = normalize_text l := by
  obtain ⟨h1, h2, h3, h4, h5, h6, h7, h8, h9, h10⟩ := normalize_text_invariants l
  exact normalize_text_fix_of_invariants h1 h2 h3 h4 h5 h6 h7 h8 h9 h10

/-- C5: the PDF extractor returns the normalized primary text whenever
that is non-empty, otherwise the normalized line-feed join of the
per-page texts (missing pages as empty strings); in particular an empty
primary result with pages "Hello", "World" gives "Hello\nWorld". -/
theorem c5_pdf_extractor (primary : List Char) (pages : List (Option (List Char))) :
    (primary ≠ [] → extract_text_from_pdf primary pages = normalize_text primary) ∧
    (primary = [] → extract_text_from_pdf primary pages =
      normalize_text (List.intercalate ['\n'] (pages.map (fun p => p.getD [])))) ∧
    extract_text_from_pdf [] [some ("Hello".toList), some ("World".toList)] =
      "Hello\nWorld".toList := by
  refine ⟨?_, ?_, by decide⟩
  · intro h
    rw [extract_text_from_pdf, if_pos h]
  · intro h
    rw [extract_text_from_pdf, if_neg (by simp [h])]

theorem c5_pdf_extractor_witness :
    extract_text_from_pdf ("x".toList) [] = normalize_text ("x".toList) :=
  (c5_pdf_extractor ("x".toList) []).1 (by decide)

/-- C6 (counterexample): on an extraction failure the handler sends the
failure reply inside the `except` block *before* the `finally` clears
the state, so the state is not cleared before every outcome reply. -/
theorem c6_counterexample :
    clearedBeforeReplies
      (handle_resume_file (some ⟨some ("r.pdf".toList)⟩) (.error ()) []) = false := by
  decide

/-- C6 (amended): for a supported extension, on extraction success
(including empty text) the state is cleared before any outcome reply;
on extraction failure the trace is exactly attempt, failure reply, then
state clear — the clear still happens before the handler returns, but
after the failure reply. -/
theorem c6_clear_order (d : TgDocument) (outcome : Except Unit (List Char))
    (dateLabel : List Char)
    (hext : get_file_extension d = some ("pdf".toList) ∨
      get_file_extension d = some ("docx".toList)) :
    (∀ text, outcome = .ok text →
      clearedBeforeReplies (handle_resume_file (some d) outcome dateLabel) = true) ∧
    (∀ e, outcome = .error e →
      handle_resume_file (some d) outcome dateLabel =
        [.extractAttempt, .replyFail, .clearState]) := by
  constructor
  · intro text hok
    subst hok
    have htrace : handle_resume_file (some d) (.ok text) dateLabel =
        .extractAttempt :: .clearState ::
          (if text = [] then [.replyEmpty]
           else (buildMessages dateLabel text).map .sendMessage) := by
      rw [handle_resume_file, if_pos hext]
    rw [htrace, clearedBeforeReplies, clearedBeforeRepliesAux,
      if_neg (by decide), if_neg (by decide),
      clearedBeforeRepliesAux, if_pos rfl]
    exact clearedBeforeRepliesAux_true _
  · intro e herr
    subst herr
    rw [handle_resume_file, if_pos hext]

theorem c6_clear_order_witness :
    clearedBeforeReplies
      (handle_resume_file (some ⟨some ("r.pdf".toList)⟩) (.ok ("Hi".toList)) [])
      = true :=
  (c6_clear_order _ _ _ (by decide)).1 ("Hi".toList) rfl

/-- C7 (counterexample): as stated — for every input text shorter than
3500 characters — the claim fails: on the untrimmed input " x " the
single produced chunk is " x " itself, which is not the trimmed
input. -/
theorem c7_counterexample :
    ¬ (chunkLoop (" x ".toList) = [pyStrip (" x ".toList)]) := by decide

/-- C7 (amended): for every non-empty, already-trimmed input text (the
chunker's inputs are normalizer outputs, which are stripped, and are
guarded non-empty by the handler) shorter than 3500 characters, the
chunker yields exactly one chunk equal to the (trimmed) input. -/
theorem c7_single_chunk (text : List Char) (hne : text ≠ [])
    (hstrip : pyStrip text = text) (hlen : text.length < 3500) :
    chunkLoop text = [pyStrip text] := by
  rw [chunkLoop_eq, if_neg hne, if_pos (by omega), hstrip]

theorem c7_single_chunk_witness : chunkLoop ("Hi".toList) = [pyStrip ("Hi".toList)] :=
  c7_single_chunk ("Hi".toList) (by decide) (by decide) (by decide)

/-- C8: a document whose derived extension is not pdf/docx gets exactly
the unsupported-format reply; no extraction is attempted and the
conversation state is not cleared. -/
theorem c8_unsupported (d : TgDocument) (outcome : Except Unit (List Char))
    (dateLabel : List Char)
    (hext : ¬ (get_file_extension d = some ("pdf".toList) ∨
      get_file_extension d = some ("docx".toList))) :
    handle_resume_file (some d) outcome dateLabel = [.replyUnsupported] ∧
    BotEvent.extractAttempt ∉ handle_resume_file (some d) outcome dateLabel ∧
    BotEvent.clearState ∉ handle_resume_file (some d) outcome dateLabel := by
  have htrace : handle_resume_file (some d) outcome dateLabel = [.replyUnsupported] := by
    rw [handle_resume_file.eq_def]
    exact if_neg hext
  refine ⟨htrace, ?_, ?_⟩
  · rw [htrace]; decide
  · rw [htrace]; decide

theorem c8_unsupported_witness :
    handle_resume_file (some ⟨some ("resume.txt".toList)⟩) (.ok ("Hi".toList)) [] =
      [.replyUnsupported] :=
  (c8_unsupported _ _ _ (by decide)).1

/-- C9: for every chunk of the splitting loop at (zero-based) position
`i`, with the real 10-character date label and any reachable one-based
page index `i + 1` (any index of at most 572 digits — reaching more
would need an input of at least 10^572 characters), header plus chunk
fit in 4096, so the body truncation `chunk[:4096 - len(header)]`
returns the whole chunk and drops nothing. -/
theorem c9_no_truncation (text dateLabel : List Char) (i : Nat) (chunk : List Char)
    (hdl : dateLabel.length = 10) (hc : (chunkLoop text)[i]? = some chunk)
    (hi : i + 1 < 10 ^ 572) :
    (headerChars dateLabel (i + 1)).length + chunk.length ≤ 4096 ∧
      pySliceTo chunk (4096 - ((headerChars dateLabel (i + 1)).length : Int))
        = chunk := by
  have hchunk : chunk.length ≤ 3500 :=
    chunkLoop_chunk_length_le text chunk (List.getElem?_mem hc)
  have hdig : (natDecimalDigits (i + 1)).length ≤ 572 :=
    natDecimalDigits_length_le (by omega) hi
  have hdr := headerChars_length dateLabel (i + 1)
  rw [hdl] at hdr
  constructor
  · omega
  · apply pySliceTo_of_length_le
    rw [hdr]
    omega

theorem c9_no_truncation_witness :
    (headerChars ("2024-01-01".toList) 1).length + ("Hi".toList).length ≤ 4096 ∧
      pySliceTo ("Hi".toList)
        (4096 - ((headerChars ("2024-01-01".toList) 1).length : Int))
        = "Hi".toList := by
  have hpow : (1 : Nat) < 10 ^ 572 := by
    calc (1 : Nat) < 10 ^ 1 := by norm_num
      _ ≤ 10 ^ 572 := Nat.pow_le_pow_right (by norm_num) (by norm_num)
  exact c9_no_truncation ("Hi".toList) ("2024-01-01".toList) 0 ("Hi".toList)
    (by decide) (by decide) hpow

/-- C10: the chunking loop terminates — on any remaining text longer
than the budget, the iteration emits the front chunk and strictly
shortens the remaining text (the split consumes at least one character:
either the split index is positive, or the whitespace found at index 0
is stripped from the remainder). -/
theorem c10_loop_terminates (r : List Char) (hlen : 3500 < r.length) :
    (nextRemaining r).length < r.length ∧
      chunkLoop r = frontChunk r :: chunkLoop (nextRemaining r) := by
  refine ⟨nextRemaining_length_lt hlen, ?_⟩
  rw [chunkLoop_eq r, if_neg (by intro h; subst h; simp at hlen),
    if_neg (by omega)]

theorem c10_loop_terminates_witness :
    (nextRemaining (List.replicate 3501 'a')).length <
      (List.replicate 3501 'a').length :=
  (c10_loop_terminates (List.replicate 3501 'a')
    (by rw [List.length_replicate]; omega)).1
